import Mathlib

/-!
Verification of the active-coverage staffing and shift-assignment engine.

Shallow embedding of the Python sources under `python-services/`:
Python floats are modelled as `ℚ` (all the quantities involved — covers,
ratios, buffers, hours — are small decimals for which float arithmetic is
exact in every case the theorems touch), Python ints as `ℤ` or `ℕ`, and
timestamps as minutes since midnight (`ℚ` or `ℕ`).
-/

namespace RestaurantApp

/-! ## Staffing Calculator — `labor_optimizer/core/staffing.py` -/

/-- From `core/staffing.py`, `compute_servers_needed`:
if covers ≤ 0 return the minimum; else `max(ceil(covers·(1+buffer)/ratio), min)`. -/
def compute_servers_needed (active_covers covers_per_server buffer_pct : ℚ)
    (min_servers : ℤ) : ℤ :=
  if active_covers ≤ 0 then min_servers
  else max (⌈active_covers * (1 + buffer_pct) / covers_per_server⌉) min_servers

/-- From `core/staffing.py`, `compute_bartenders_needed`: same formula,
independently configured ratio/floor. -/
def compute_bartenders_needed (active_covers covers_per_bartender buffer_pct : ℚ)
    (min_bartenders : ℤ) : ℤ :=
  if active_covers ≤ 0 then min_bartenders
  else max (⌈active_covers * (1 + buffer_pct) / covers_per_bartender⌉) min_bartenders

/-- One scenario's headcounts (`{'servers': N, 'bartenders': N}`). -/
structure ScenarioStaff where
  servers : ℤ
  bartenders : ℤ
  deriving DecidableEq, Repr

/-- The three scenarios returned by `compute_scenario_staffing`. -/
structure ScenarioStaffing where
  lean : ScenarioStaff
  buffered : ScenarioStaff
  safe : ScenarioStaff
  deriving DecidableEq, Repr

/-- From `core/staffing.py`, `compute_scenario_staffing`:
lean = p50 with buffer 0, buffered = p75 with the configured buffer,
safe = p90 with buffer 0. -/
def compute_scenario_staffing (p50 p75 p90 covers_per_server covers_per_bartender
    buffer_pct : ℚ) (min_servers min_bartenders : ℤ) : ScenarioStaffing where
  lean :=
    { servers := compute_servers_needed p50 covers_per_server 0 min_servers
      bartenders := compute_bartenders_needed p50 covers_per_bartender 0 min_bartenders }
  buffered :=
    { servers := compute_servers_needed p75 covers_per_server buffer_pct min_servers
      bartenders := compute_bartenders_needed p75 covers_per_bartender buffer_pct min_bartenders }
  safe :=
    { servers := compute_servers_needed p90 covers_per_server 0 min_servers
      bartenders := compute_bartenders_needed p90 covers_per_bartender 0 min_bartenders }

/-! ## Concurrency Engine — `labor_optimizer/core/active_covers.py` -/

/-- One imported check; times in minutes since midnight. -/
structure Check where
  open_time : ℚ
  close_time : ℚ
  guest_count : ℤ
  deriving DecidableEq, Repr

/-- From `core/active_covers.py`, `compute_active_covers`: sum `guest_count`
over the checks with `open_time ≤ t < close_time` (pandas row filter + sum). -/
def compute_active_covers (checks : List Check) (t : ℚ) : ℤ :=
  ((checks.filter (fun c => decide (c.open_time ≤ t) && decide (t < c.close_time))).map
    Check.guest_count).sum

/-- The two checks of the spec's worked example:
A opens 18:00, closes 19:30, 4 guests; B opens 19:00, closes 20:00, 2 guests. -/
def demoChecks : List Check :=
  [⟨18 * 60, 19 * 60 + 30, 4⟩, ⟨19 * 60, 20 * 60, 2⟩]

lemma sum_filter_eq_sum_ite (checks : List Check) (t : ℚ) :
    compute_active_covers checks t
      = (checks.map
          (fun c => if c.open_time ≤ t ∧ t < c.close_time then c.guest_count else 0)).sum := by
  induction checks with
  | nil => rfl
  | cons c rest ih =>
      simp only [compute_active_covers, List.filter_cons] at ih ⊢
      by_cases h1 : c.open_time ≤ t
      · by_cases h2 : t < c.close_time
        · simp [h1, h2, ih]
        · simp [h1, h2, ih]
      · simp [h1, ih]

/-- C5: for covers > 0 and positive ratio,
`needed = max(floor, ceil(covers·(1+buffer)/ratio))`; for covers ≤ 0 the result
is exactly the floor; and `needed(0,16,0.1,2) = 2`, `needed(160,16,0.1,2) = 11`. -/
theorem C5_staffing_calculator (covers ratio buffer : ℚ) (floor : ℤ)
    (hratio : 0 < ratio) :
    (0 < covers →
      compute_servers_needed covers ratio buffer floor
        = max floor ⌈covers * (1 + buffer) / ratio⌉) ∧
    (covers ≤ 0 → compute_servers_needed covers ratio buffer floor = floor) ∧
    compute_servers_needed 0 16 (1/10) 2 = 2 ∧
    compute_servers_needed 160 16 (1/10) 2 = 11 := by
  refine ⟨fun hpos => ?_, fun hnonpos => ?_, ?_, ?_⟩
  · rw [compute_servers_needed, if_neg (by exact not_le.mpr hpos), max_comm]
  · rw [compute_servers_needed, if_pos hnonpos]
  · rfl
  · rw [compute_servers_needed, if_neg (by norm_num)]
    norm_num

/-- C5 witness: the theorem applied at covers = 160, ratio = 16, buffer = 1/10,
floor = 2. -/
theorem C5_staffing_calculator_witness :
    compute_servers_needed 160 16 (1/10) 2 = 11 :=
  (C5_staffing_calculator 160 16 (1/10) 2 (by norm_num)).2.2.2

/-- C6: `active(t)` equals the sum of `guest_count` over exactly the checks
with `open_time ≤ t < close_time`, and on the worked example
(A 18:00–19:30 ×4, B 19:00–20:00 ×2): active(19:15)=6, active(18:30)=4,
active(20:15)=0. -/
theorem C6_active_covers_point_query (checks : List Check) (t : ℚ) :
    compute_active_covers checks t
      = (checks.map
          (fun c => if c.open_time ≤ t ∧ t < c.close_time then c.guest_count else 0)).sum ∧
    compute_active_covers demoChecks (19 * 60 + 15) = 6 ∧
    compute_active_covers demoChecks (18 * 60 + 30) = 4 ∧
    compute_active_covers demoChecks (20 * 60 + 15) = 0 := by
  refine ⟨sum_filter_eq_sum_ite checks t, ?_, ?_, ?_⟩ <;>
    simp [compute_active_covers, demoChecks, List.filter_cons] <;> norm_num

/-! ## Profile Builder — `labor_optimizer/services/profile_builder.py`

`build_profiles` groups snapshots by (weekday, hour), and for each surviving
cell computes `np.percentile` of the active-covers samples at 50/75/90,
feeds the unrounded percentiles to `compute_scenario_staffing`, and stores
the percentiles rounded to two decimals (Python `round`, half to even). -/

/-- `np.percentile(a, q)` with the default linear interpolation, on data that
is already sorted ascending: `pos = q/100·(n−1)`; interpolate between
`a[⌊pos⌋]` and `a[⌈pos⌉]`. -/
def percentileOfSorted (a : List ℚ) (q : ℚ) : ℚ :=
  a.getD (⌊q / 100 * ((a.length : ℚ) - 1)⌋).toNat 0
    + (a.getD (⌈q / 100 * ((a.length : ℚ) - 1)⌉).toNat 0
        - a.getD (⌊q / 100 * ((a.length : ℚ) - 1)⌋).toNat 0)
      * (q / 100 * ((a.length : ℚ) - 1) - ⌊q / 100 * ((a.length : ℚ) - 1)⌋)

/-- `np.percentile(data, q)`: numpy sorts the data internally. -/
def npPercentile (data : List ℚ) (q : ℚ) : ℚ :=
  percentileOfSorted (List.insertionSort (· ≤ ·) data) q

/-- Python `round` to an integer, idealised on ℚ: round half to even. -/
def roundHalfEven (x : ℚ) : ℤ :=
  if x - ⌊x⌋ < 1/2 then ⌊x⌋
  else if 1/2 < x - ⌊x⌋ then ⌊x⌋ + 1
  else if Even ⌊x⌋ then ⌊x⌋ else ⌊x⌋ + 1

/-- Python `round(x, 2)` as used when storing profile percentiles. -/
def pyRound2 (x : ℚ) : ℚ := (roundHalfEven (x * 100) : ℚ) / 100

lemma roundHalfEven_ge (x : ℚ) : ⌊x⌋ ≤ roundHalfEven x := by
  unfold roundHalfEven; split_ifs <;> omega

lemma roundHalfEven_le (x : ℚ) : roundHalfEven x ≤ ⌊x⌋ + 1 := by
  unfold roundHalfEven; split_ifs <;> omega

lemma roundHalfEven_mono {x y : ℚ} (hxy : x ≤ y) :
    roundHalfEven x ≤ roundHalfEven y := by
  rcases lt_or_eq_of_le (Int.floor_le_floor hxy) with hf | hf
  · calc roundHalfEven x ≤ ⌊x⌋ + 1 := roundHalfEven_le x
      _ ≤ ⌊y⌋ := by omega
      _ ≤ roundHalfEven y := roundHalfEven_ge y
  · have hr : x - (⌊x⌋ : ℚ) ≤ y - (⌊y⌋ : ℚ) := by
      rw [← hf]; linarith
    unfold roundHalfEven
    rw [← hf] at hr ⊢
    split_ifs <;> first | rfl | omega | linarith | tauto

lemma pyRound2_mono {x y : ℚ} (hxy : x ≤ y) : pyRound2 x ≤ pyRound2 y := by
  unfold pyRound2
  have := roundHalfEven_mono (mul_le_mul_of_nonneg_right hxy (by norm_num : (0:ℚ) ≤ 100))
  have h2 : ((roundHalfEven (x * 100) : ℤ) : ℚ) ≤ ((roundHalfEven (y * 100) : ℤ) : ℚ) := by
    exact_mod_cast this
  linarith

lemma getD_mono_of_sorted {l : List ℚ} (hs : l.Sorted (· ≤ ·)) {i j : ℕ}
    (hij : i ≤ j) (hj : j < l.length) : l.getD i 0 ≤ l.getD j 0 := by
  rw [List.getD_eq_get _ _ (lt_of_le_of_lt hij hj), List.getD_eq_get _ _ hj]
  exact hs.rel_get_of_le hij

lemma getD_nonneg {l : List ℚ} (h : ∀ x ∈ l, 0 ≤ x) (i : ℕ) : 0 ≤ l.getD i 0 := by
  rcases lt_or_le i l.length with hi | hi
  · rw [List.getD_eq_get _ _ hi]
    exact h _ (l.get_mem _ _)
  · rw [List.getD_eq_default _ _ hi]

lemma percentileOfSorted_nonneg {a : List ℚ} (h : ∀ x ∈ a, 0 ≤ x) (q : ℚ) :
    0 ≤ percentileOfSorted a q := by
  unfold percentileOfSorted
  set pos : ℚ := q / 100 * ((a.length : ℚ) - 1) with hposdef
  have hf0 : (0:ℚ) ≤ pos - ⌊pos⌋ := by
    have := Int.floor_le pos; linarith
  have hf1 : pos - (⌊pos⌋ : ℚ) ≤ 1 := by
    have := Int.lt_floor_add_one pos; push_cast at this ⊢; linarith
  have hL := getD_nonneg h (⌊pos⌋).toNat
  have hH := getD_nonneg h (⌈pos⌉).toNat
  nlinarith [mul_nonneg hL (by linarith : (0:ℚ) ≤ 1 - (pos - ⌊pos⌋)),
    mul_nonneg hH hf0]

lemma percentileOfSorted_mono {a : List ℚ} (hs : a.Sorted (· ≤ ·)) (hne : a ≠ [])
    {q1 q2 : ℚ} (h0 : 0 ≤ q1) (h12 : q1 ≤ q2) (h100 : q2 ≤ 100) :
    percentileOfSorted a q1 ≤ percentileOfSorted a q2 := by
  have hn : 1 ≤ a.length := List.length_pos.mpr hne
  set mQ : ℚ := (a.length : ℚ) - 1 with hmQ
  have hmQ0 : 0 ≤ mQ := by
    have : (1:ℚ) ≤ (a.length : ℚ) := by exact_mod_cast hn
    linarith
  set p1 : ℚ := q1 / 100 * mQ with hp1def
  set p2 : ℚ := q2 / 100 * mQ with hp2def
  have hp10 : 0 ≤ p1 := mul_nonneg (by positivity) hmQ0
  have hp12 : p1 ≤ p2 := by
    apply mul_le_mul_of_nonneg_right _ hmQ0
    linarith
  have hp2m : p2 ≤ mQ := by
    have h1 : q2 / 100 ≤ 1 := by linarith
    calc p2 = q2 / 100 * mQ := hp2def
      _ ≤ 1 * mQ := mul_le_mul_of_nonneg_right h1 hmQ0
      _ = mQ := one_mul mQ
  -- index bounds
  have hlo1 : (0:ℤ) ≤ ⌊p1⌋ := Int.floor_nonneg.mpr hp10
  have hlo12 : ⌊p1⌋ ≤ ⌊p2⌋ := Int.floor_le_floor hp12
  have hlo2 : (0:ℤ) ≤ ⌊p2⌋ := le_trans hlo1 hlo12
  have hceil2 : ⌈p2⌉ ≤ (a.length : ℤ) - 1 := by
    rw [Int.ceil_le]
    push_cast
    linarith
  have hceil12 : ⌈p1⌉ ≤ ⌈p2⌉ := Int.ceil_le_ceil hp12
  have hidx : ∀ i : ℤ, 0 ≤ i → i ≤ (a.length : ℤ) - 1 → i.toNat < a.length := by
    intro i h0i hup; omega
  -- pointwise getD access facts
  have hfloorle1 : ⌊p1⌋ ≤ ⌈p1⌉ := Int.floor_le_ceil p1
  have hfloorle2 : ⌊p2⌋ ≤ ⌈p2⌉ := Int.floor_le_ceil p2
  have hA12 : a.getD (⌊p1⌋).toNat 0 ≤ a.getD (⌈p1⌉).toNat 0 :=
    getD_mono_of_sorted hs (by omega)
      (hidx _ (le_trans hlo1 hfloorle1) (le_trans hceil12 hceil2))
  have hA22 : a.getD (⌊p2⌋).toNat 0 ≤ a.getD (⌈p2⌉).toNat 0 :=
    getD_mono_of_sorted hs (by omega) (hidx _ (le_trans hlo2 hfloorle2) hceil2)
  have hfr1a : (0:ℚ) ≤ p1 - ⌊p1⌋ := by have := Int.floor_le p1; linarith
  have hfr1b : p1 - (⌊p1⌋:ℚ) ≤ 1 := by
    have := Int.lt_floor_add_one p1; push_cast at this ⊢; linarith
  have hfr2a : (0:ℚ) ≤ p2 - ⌊p2⌋ := by have := Int.floor_le p2; linarith
  have hfr2b : p2 - (⌊p2⌋:ℚ) ≤ 1 := by
    have := Int.lt_floor_add_one p2; push_cast at this ⊢; linarith
  show a.getD (⌊p1⌋).toNat 0
      + (a.getD (⌈p1⌉).toNat 0 - a.getD (⌊p1⌋).toNat 0) * (p1 - ⌊p1⌋)
      ≤ a.getD (⌊p2⌋).toNat 0
      + (a.getD (⌈p2⌉).toNat 0 - a.getD (⌊p2⌋).toNat 0) * (p2 - ⌊p2⌋)
  rcases lt_or_eq_of_le hlo12 with hlt | heq
  · -- different cells: chain through a[⌈p1⌉] ≤ a[⌊p2⌋]
    have hc1 : ⌈p1⌉ ≤ ⌊p1⌋ + 1 := Int.ceil_le_floor_add_one p1
    have hstep : a.getD (⌈p1⌉).toNat 0 ≤ a.getD (⌊p2⌋).toNat 0 :=
      getD_mono_of_sorted hs (by omega) (hidx _ hlo2 (le_trans hfloorle2 hceil2))
    nlinarith [mul_nonneg (sub_nonneg.mpr hA12) (by linarith : (0:ℚ) ≤ 1 - (p1 - ⌊p1⌋)),
      mul_nonneg (sub_nonneg.mpr hA22) hfr2a]
  · -- same floor cell
    by_cases hint : ⌈p1⌉ = ⌊p1⌋
    · -- p1 sits on the grid: value is a[⌊p1⌋], below any interpolant of cell ⌊p2⌋
      rw [hint, heq]
      nlinarith [mul_nonneg (sub_nonneg.mpr hA22) hfr2a]
    · -- both interpolate inside the same cell [⌊p1⌋, ⌊p1⌋+1]
      have hc1 : ⌈p1⌉ = ⌊p1⌋ + 1 := by
        have := Int.ceil_le_floor_add_one p1
        omega
      have hc2 : ⌈p2⌉ = ⌊p2⌋ + 1 := by
        have h1 : ⌊p2⌋ + 1 ≤ ⌈p2⌉ := by
          rw [← heq, ← hc1]
          exact hceil12
        have := Int.ceil_le_floor_add_one p2
        omega
      rw [hc2] at hA22
      rw [hc1, hc2, heq]
      have hmid : p1 - (⌊p2⌋:ℚ) ≤ p2 - ⌊p2⌋ := by linarith
      have hprod := mul_le_mul_of_nonneg_left hmid (sub_nonneg.mpr hA22)
      linarith

lemma npPercentile_mono {data : List ℚ} (hne : data ≠ []) {q1 q2 : ℚ}
    (h0 : 0 ≤ q1) (h12 : q1 ≤ q2) (h100 : q2 ≤ 100) :
    npPercentile data q1 ≤ npPercentile data q2 := by
  apply percentileOfSorted_mono (List.sorted_insertionSort _ data)
    _ h0 h12 h100
  intro hsortnil
  apply hne
  have hp : data.Perm ([] : List ℚ) := by
    rw [← hsortnil]
    exact (List.perm_insertionSort (· ≤ ·) data).symm
  exact hp.eq_nil

lemma npPercentile_nonneg {data : List ℚ} (h : ∀ x ∈ data, 0 ≤ x) (q : ℚ) :
    0 ≤ npPercentile data q := by
  apply percentileOfSorted_nonneg
  intro x hx
  exact h x ((List.perm_insertionSort (· ≤ ·) data).mem_iff.mp hx)

/-- One row of `staffing_profiles` as built by `build_profiles`
(the fields the claims are about). -/
structure ProfileCell where
  sample_count : ℕ
  p50 : ℚ
  p75 : ℚ
  p90 : ℚ
  servers_lean : ℤ
  servers_buffered : ℤ
  servers_safe : ℤ
  bartenders_lean : ℤ
  bartenders_buffered : ℤ
  bartenders_safe : ℤ
  deriving DecidableEq, Repr

/-- From `profile_builder.py` (`build_profiles`, percentile block): percentiles
of the cell's `active_covers` samples, scenario staffing computed from the
unrounded percentiles, stored percentiles rounded to two decimals. -/
def buildProfileCell (entries : List ℚ) (cps cpb buffer_pct : ℚ)
    (min_servers min_bartenders : ℤ) : ProfileCell :=
  let p50 := npPercentile entries 50
  let p75 := npPercentile entries 75
  let p90 := npPercentile entries 90
  let scen := compute_scenario_staffing p50 p75 p90 cps cpb buffer_pct
    min_servers min_bartenders
  { sample_count := entries.length
    p50 := pyRound2 p50
    p75 := pyRound2 p75
    p90 := pyRound2 p90
    servers_lean := scen.lean.servers
    servers_buffered := scen.buffered.servers
    servers_safe := scen.safe.servers
    bartenders_lean := scen.lean.bartenders
    bartenders_buffered := scen.buffered.bartenders
    bartenders_safe := scen.safe.bartenders }

lemma compute_servers_needed_mono {x1 x2 b1 b2 r : ℚ} {m : ℤ} (hr : 0 < r)
    (hx12 : x1 ≤ x2) (hxb : x1 * (1 + b1) ≤ x2 * (1 + b2)) :
    compute_servers_needed x1 r b1 m ≤ compute_servers_needed x2 r b2 m := by
  unfold compute_servers_needed
  by_cases h1 : x1 ≤ 0
  · rw [if_pos h1]
    split_ifs with h2
    · exact le_refl m
    · exact le_max_right _ m
  · rw [if_neg h1, if_neg (by intro h2; exact h1 (le_trans hx12 h2))]
    refine max_le_max (Int.ceil_le_ceil ?_) (le_refl m)
    gcongr

lemma compute_bartenders_needed_eq (x r b : ℚ) (m : ℤ) :
    compute_bartenders_needed x r b m = compute_servers_needed x r b m := rfl

/-- C3 (amended): for every populated profile cell the stored (rounded)
percentiles satisfy p50 ≤ p75 ≤ p90; with the same ratio and floor for all
three scenarios, lean ≤ buffered and lean ≤ safe always hold, and
buffered ≤ safe holds whenever p75·(1+buffer) ≤ p90 (in particular whenever
the buffer is 0) — but not in general: with the configured buffer strictly
positive, buffered can exceed safe (see the counterexample). -/
theorem C3_scenario_ordering (entries : List ℚ) (cps cpb buffer_pct : ℚ)
    (min_servers min_bartenders : ℤ) (cell : ProfileCell)
    (hcell : cell = buildProfileCell entries cps cpb buffer_pct
      min_servers min_bartenders)
    (hne : entries ≠ []) (hnn : ∀ x ∈ entries, 0 ≤ x) (hb : 0 ≤ buffer_pct)
    (hcps : 0 < cps) (hcpb : 0 < cpb) :
    (cell.p50 ≤ cell.p75 ∧ cell.p75 ≤ cell.p90) ∧
    (cell.servers_lean ≤ cell.servers_buffered ∧
      cell.bartenders_lean ≤ cell.bartenders_buffered) ∧
    (cell.servers_lean ≤ cell.servers_safe ∧
      cell.bartenders_lean ≤ cell.bartenders_safe) ∧
    (npPercentile entries 75 * (1 + buffer_pct) ≤ npPercentile entries 90 →
      cell.servers_buffered ≤ cell.servers_safe ∧
      cell.bartenders_buffered ≤ cell.bartenders_safe) := by
  subst hcell
  have h5075 : npPercentile entries 50 ≤ npPercentile entries 75 :=
    npPercentile_mono hne (by norm_num) (by norm_num) (by norm_num)
  have h7590 : npPercentile entries 75 ≤ npPercentile entries 90 :=
    npPercentile_mono hne (by norm_num) (by norm_num) (by norm_num)
  have h75nn : 0 ≤ npPercentile entries 75 := npPercentile_nonneg hnn 75
  have hlb : npPercentile entries 50 * (1 + 0)
      ≤ npPercentile entries 75 * (1 + buffer_pct) := by
    nlinarith [mul_nonneg h75nn hb]
  have hls : npPercentile entries 50 * (1 + 0)
      ≤ npPercentile entries 90 * (1 + 0) := by nlinarith
  refine ⟨⟨pyRound2_mono h5075, pyRound2_mono h7590⟩, ⟨?_, ?_⟩, ⟨?_, ?_⟩,
    fun hcond => ⟨?_, ?_⟩⟩ <;>
    simp only [buildProfileCell, compute_scenario_staffing,
      compute_bartenders_needed_eq]
  · exact compute_servers_needed_mono hcps h5075 hlb
  · exact compute_servers_needed_mono hcpb h5075 hlb
  · exact compute_servers_needed_mono hcps (le_trans h5075 h7590) hls
  · exact compute_servers_needed_mono hcpb (le_trans h5075 h7590) hls
  · exact compute_servers_needed_mono hcps h7590 (by linarith)
  · exact compute_servers_needed_mono hcpb h7590 (by linarith)

/-- C3 witness: a concrete populated cell (samples 100, 120, 160 covers,
ratios 16/30, buffer 0.10, floors 2/1) at which the amended theorem's
hypotheses all hold. -/
theorem C3_scenario_ordering_witness :
    ((buildProfileCell [100, 120, 160] 16 30 (1/10) 2 1).p50
        ≤ (buildProfileCell [100, 120, 160] 16 30 (1/10) 2 1).p75 ∧
      (buildProfileCell [100, 120, 160] 16 30 (1/10) 2 1).p75
        ≤ (buildProfileCell [100, 120, 160] 16 30 (1/10) 2 1).p90) ∧
    ((buildProfileCell [100, 120, 160] 16 30 (1/10) 2 1).servers_lean
        ≤ (buildProfileCell [100, 120, 160] 16 30 (1/10) 2 1).servers_buffered ∧
      (buildProfileCell [100, 120, 160] 16 30 (1/10) 2 1).bartenders_lean
        ≤ (buildProfileCell [100, 120, 160] 16 30 (1/10) 2 1).bartenders_buffered) ∧
    ((buildProfileCell [100, 120, 160] 16 30 (1/10) 2 1).servers_lean
        ≤ (buildProfileCell [100, 120, 160] 16 30 (1/10) 2 1).servers_safe ∧
      (buildProfileCell [100, 120, 160] 16 30 (1/10) 2 1).bartenders_lean
        ≤ (buildProfileCell [100, 120, 160] 16 30 (1/10) 2 1).bartenders_safe) ∧
    (npPercentile [100, 120, 160] 75 * (1 + 1/10) ≤ npPercentile [100, 120, 160] 90 →
      (buildProfileCell [100, 120, 160] 16 30 (1/10) 2 1).servers_buffered
          ≤ (buildProfileCell [100, 120, 160] 16 30 (1/10) 2 1).servers_safe ∧
      (buildProfileCell [100, 120, 160] 16 30 (1/10) 2 1).bartenders_buffered
          ≤ (buildProfileCell [100, 120, 160] 16 30 (1/10) 2 1).bartenders_safe) :=
  C3_scenario_ordering [100, 120, 160] 16 30 (1/10) 2 1 _ rfl
    (by simp) (by norm_num) (by norm_num) (by norm_num) (by norm_num)

/-- C3 counterexample: three samples of 160 covers give
p50 = p75 = p90 = 160, yet with ratio 16, floor 2 and the configured buffer
0.10 the buffered headcount is ⌈176/16⌉ = 11 while the safe headcount is
⌈160/16⌉ = 10, so buffered > safe and the claimed chain
lean ≤ buffered ≤ safe fails. -/
lemma npPercentile_const160 :
    npPercentile [160, 160, 160] 50 = 160 ∧
    npPercentile [160, 160, 160] 75 = 160 ∧
    npPercentile [160, 160, 160] 90 = 160 := by
  have hs : List.insertionSort (· ≤ ·) [160, 160, 160]
      = ([160, 160, 160] : List ℚ) := by
    simp [List.insertionSort, List.orderedInsert]
  refine ⟨?_, ?_, ?_⟩ <;> unfold npPercentile percentileOfSorted <;> rw [hs]
  · rw [show (50 : ℚ) / 100 * ((([160, 160, 160] : List ℚ).length : ℚ) - 1) = 1
      by norm_num]
    rw [show ⌊(1 : ℚ)⌋ = 1 by rw [Int.floor_eq_iff] <;> norm_num,
      show ⌈(1 : ℚ)⌉ = 1 by rw [Int.ceil_eq_iff] <;> norm_num]
    norm_num [show Int.toNat 1 = 1 from rfl]
  · rw [show (75 : ℚ) / 100 * ((([160, 160, 160] : List ℚ).length : ℚ) - 1) = 3/2
      by norm_num]
    rw [show ⌊(3/2 : ℚ)⌋ = 1 by rw [Int.floor_eq_iff] <;> norm_num,
      show ⌈(3/2 : ℚ)⌉ = 2 by rw [Int.ceil_eq_iff] <;> norm_num]
    norm_num [show Int.toNat 1 = 1 from rfl, show Int.toNat 2 = 2 from rfl]
  · rw [show (90 : ℚ) / 100 * ((([160, 160, 160] : List ℚ).length : ℚ) - 1) = 9/5
      by norm_num]
    rw [show ⌊(9/5 : ℚ)⌋ = 1 by rw [Int.floor_eq_iff] <;> norm_num,
      show ⌈(9/5 : ℚ)⌉ = 2 by rw [Int.ceil_eq_iff] <;> norm_num]
    norm_num [show Int.toNat 1 = 1 from rfl, show Int.toNat 2 = 2 from rfl]

theorem C3_counterexample :
    let cell := buildProfileCell [160, 160, 160] 16 30 (1/10) 2 1
    (cell.p50 ≤ cell.p75 ∧ cell.p75 ≤ cell.p90) ∧
    cell.servers_buffered = 11 ∧ cell.servers_safe = 10 ∧
    ¬(cell.servers_lean ≤ cell.servers_buffered ∧
      cell.servers_buffered ≤ cell.servers_safe) := by
  obtain ⟨h50, h75, h90⟩ := npPercentile_const160
  have hbuf : compute_servers_needed 160 16 (1/10) 2 = 11 := by
    unfold compute_servers_needed
    rw [if_neg (by norm_num), show (160 : ℚ) * (1 + 1/10) / 16 = 11 by norm_num,
      show ⌈(11 : ℚ)⌉ = 11 by rw [Int.ceil_eq_iff] <;> norm_num]
    norm_num
  have hsafe : compute_servers_needed 160 16 0 2 = 10 := by
    unfold compute_servers_needed
    rw [if_neg (by norm_num), show (160 : ℚ) * (1 + 0) / 16 = 10 by norm_num,
      show ⌈(10 : ℚ)⌉ = 10 by rw [Int.ceil_eq_iff] <;> norm_num]
    norm_num
  refine ⟨⟨?_, ?_⟩, ?_, ?_, ?_⟩ <;>
    simp only [buildProfileCell, compute_scenario_staffing, h50, h75, h90,
      hbuf, hsafe] <;>
    norm_num

/-! ## Alert Monitor — `labor_optimizer/services/alert_monitor.py` -/

inductive Severity where
  | info
  | warning
  | critical
  deriving DecidableEq, Repr

inductive AlertType where
  | demand_spike
  | demand_drop
  | understaffed
  | overstaffed
  deriving DecidableEq, Repr

/-- One staffing alert (the fields the claims are about). -/
structure Alert where
  hour_slot : ℕ
  alert_type : AlertType
  severity : Severity
  deriving DecidableEq, Repr

/-- `needed = math.ceil(actual_covers / cps) if actual_covers > 0 else 0`
from the forecast-miss block of `check_date`. -/
def alertNeeded (actual_covers : ℤ) (cps : ℚ) : ℤ :=
  if 0 < actual_covers then ⌈(actual_covers : ℚ) / cps⌉ else 0

/-- From `alert_monitor.py`, `check_date`, the per-hour loop body: the
demand-spike, demand-drop, understaffed and overstaffed checks for one hour
that has both a profile row (`p50`, `p75`, `p90`, buffered recommendation
`rec_servers`) and an actual snapshot (`actual_covers`). -/
def checkHourAlerts (hour : ℕ) (p50 p75 p90 : ℚ) (rec_servers actual_covers : ℤ)
    (cps : ℚ) : List Alert :=
  (if 0 < p90 ∧ p90 * (12/10) < (actual_covers : ℚ) then
    [⟨hour, AlertType.demand_spike,
      if p90 * (15/10) < (actual_covers : ℚ) then Severity.critical
      else Severity.warning⟩]
  else []) ++
  (if 10 < p50 ∧ (actual_covers : ℚ) < p50 * (1/2) then
    [⟨hour, AlertType.demand_drop, Severity.info⟩]
  else []) ++
  (if 0 < rec_servers ∧ 0 < alertNeeded actual_covers cps then
    (if rec_servers - alertNeeded actual_covers cps < -2 then
      [⟨hour, AlertType.understaffed,
        if rec_servers - alertNeeded actual_covers cps < -4 then Severity.critical
        else Severity.warning⟩]
    else if 3 < rec_servers - alertNeeded actual_covers cps then
      [⟨hour, AlertType.overstaffed, Severity.info⟩]
    else [])
  else [])

/-- C7 counterexample: a populated profile cell can have p90 = 0 (an hour
whose samples are all zero); then an actual of 5 is strictly greater than
1.2×p90 = 0, yet the `p90 > 0` guard in `check_date` suppresses the alert:
no demand_spike (indeed no alert at all) is produced. -/
theorem C7_counterexample :
    (0 : ℚ) * (12/10) < ((5 : ℤ) : ℚ) ∧
    checkHourAlerts 19 0 0 0 0 5 16 = [] := by
  constructor
  · norm_num
  · norm_num [checkHourAlerts]

/-- C7 (amended): for every hour with a profile cell whose p90 is strictly
positive, an actual strictly greater than 1.2×p90 produces exactly one
demand_spike alert, with severity critical exactly when actual > 1.5×p90 and
warning otherwise; without the 1.2×p90 excess no demand_spike alert is
produced; and at p90 = 100, actual = 155 the hour's alerts are exactly one
demand_spike of severity critical. -/
theorem C7_demand_spike (hour : ℕ) (p50 p75 p90 : ℚ) (rec actual : ℤ)
    (cps : ℚ) (hp90 : 0 < p90) :
    ((p90 * (12/10) < (actual : ℚ)) →
      (checkHourAlerts hour p50 p75 p90 rec actual cps).filter
          (fun a => decide (a.alert_type = AlertType.demand_spike))
        = [⟨hour, AlertType.demand_spike,
            if p90 * (15/10) < (actual : ℚ) then Severity.critical
            else Severity.warning⟩]) ∧
    (¬(p90 * (12/10) < (actual : ℚ)) →
      (checkHourAlerts hour p50 p75 p90 rec actual cps).filter
          (fun a => decide (a.alert_type = AlertType.demand_spike)) = []) ∧
    checkHourAlerts 20 50 80 100 8 155 16
      = [⟨20, AlertType.demand_spike, Severity.critical⟩] := by
  refine ⟨fun hsp => ?_, fun hnsp => ?_, ?_⟩
  · unfold checkHourAlerts
    rw [if_pos ⟨hp90, hsp⟩]
    simp only [List.filter_append, List.filter_cons, List.filter_nil]
    split_ifs <;> simp_all
  · unfold checkHourAlerts
    rw [if_neg (fun hc => hnsp hc.2)]
    simp only [List.filter_append, List.filter_cons, List.filter_nil]
    split_ifs <;> simp_all
  · have hN : alertNeeded 155 16 = 10 := by
      unfold alertNeeded
      rw [if_pos (by norm_num)]
      rw [show (((155 : ℤ) : ℚ)) / 16 = 155/16 by norm_num]
      rw [Int.ceil_eq_iff] <;> norm_num
    unfold checkHourAlerts
    rw [hN]
    norm_num

/-- C7 witness: the amended theorem applied at the spec's concrete scenario
(hour 20, p90 = 100, actual = 155). -/
theorem C7_demand_spike_witness :
    checkHourAlerts 20 50 80 100 8 155 16
      = [⟨20, AlertType.demand_spike, Severity.critical⟩] :=
  (C7_demand_spike 20 50 80 100 8 155 16 (by norm_num)).2.2

/-! ## Backtest Runner — `labor_optimizer/services/backtest_runner.py` -/

/-- From `profile_builder.py`, `build_profiles`: the snapshot-selection
window. The builder sets `end_date = date.today()`,
`start_date = end_date − weeks(lookback_weeks)`, and its store query filters
only `business_date ≥ start_date` — there is no upper bound at all.
Dates are modelled as day numbers. -/
def buildProfilesSnapshotFilter (today lookback_weeks : ℕ) : ℕ → Bool :=
  fun business_date => decide (today - 7 * lookback_weeks ≤ business_date)

/-- From `backtest_runner.py`, `rolling_backtest`: for each tested date it
computes `train_end = tested − 1 day` and `train_start = train_end − weeks`,
but never passes them anywhere; it calls
`build_profiles(lookback_weeks=train_weeks)`, so the snapshot filter behind
the profile that scores a tested date is `buildProfilesSnapshotFilter`
anchored at today, independent of the tested date. -/
def rollingProfileFilter (today train_weeks tested_date : ℕ) : ℕ → Bool :=
  fun business_date => buildProfilesSnapshotFilter today train_weeks business_date

/-- Modelled from the spec: the window the rolling backtest is documented to
use — only snapshots in the N training weeks strictly preceding the tested
date. -/
def specRollingFilter (train_weeks tested_date : ℕ) : ℕ → Bool :=
  fun business_date =>
    decide (tested_date - 7 * train_weeks ≤ business_date) &&
      decide (business_date < tested_date)

/-- C4: the walk-forward backtest does NOT exclude snapshots on/after the
tested date. With today = day 150, train_weeks = 4 and tested date = day 100,
the snapshot dated day 150 — fifty days after the tested date — passes the
filter actually used to build the profile that scores day 100, though the
documented training window rejects it. `rolling_backtest` computes
`train_start`/`train_end` and then never uses them. -/
theorem C4_rolling_backtest_lookahead :
    rollingProfileFilter 150 4 100 150 = true ∧
    specRollingFilter 4 100 150 = false := by
  constructor <;> decide

/-! ## Assignment Engine — `scheduler/auto_scheduler.py` -/

/-- `FIXED_STAFF_POSITIONS` from `auto_scheduler.py`. -/
def FIXED_STAFF_POSITIONS : List String :=
  ["Manager", "General Manager", "Assistant Manager", "Shift Manager",
   "Expeditor", "Executive Chef", "Sous Chef"]

/-- Contiguous-substring test on char lists (Python `needle in hay`). -/
def containsSub (hay needle : List Char) : Bool :=
  match hay with
  | [] => needle.isEmpty
  | c :: t => needle.isPrefixOf (c :: t) || containsSub t needle

/-- `any(f.lower() in pos_name.lower() for f in FIXED_STAFF_POSITIONS)`. -/
def isFixedPosition (name : String) : Bool :=
  FIXED_STAFF_POSITIONS.any
    (fun f => containsSub (name.data.map Char.toLower) (f.data.map Char.toLower))

/-- One scheduling requirement (the fields the claims are about);
`business_date` is a day number, weekday = `business_date % 7`. -/
structure Requirement where
  business_date : ℕ
  shift_type : String
  position_id : String
  position_name : String
  base_hourly_rate : ℚ
  employees_needed : ℤ
  hours_per_employee : ℚ
  total_hours : ℚ
  total_cost : ℚ
  deriving DecidableEq, Repr

/-- Python `date.weekday()` on a day number. -/
def weekday (d : ℕ) : ℕ := d % 7

/-- From `auto_scheduler.py`, `_apply_manager_feedback_adjustments`, the
per-requirement body: look up the learned delta for (position name, shift
type, weekday); when it is zero leave the requirement alone, otherwise set
`employees_needed = max(1, needed + delta)` and recompute
`total_hours = needed × hours_per_employee`, `total_cost = total_hours × rate`. -/
def feedbackTransform (adjust : String × String × ℕ → ℤ)
    (req : Requirement) : Requirement :=
  if adjust (req.position_name, req.shift_type, weekday req.business_date) = 0 then
    req
  else
    { req with
      employees_needed := max 1 (req.employees_needed
        + adjust (req.position_name, req.shift_type, weekday req.business_date))
      total_hours := ((max 1 (req.employees_needed
        + adjust (req.position_name, req.shift_type, weekday req.business_date)) : ℤ) : ℚ)
        * req.hours_per_employee
      total_cost := ((max 1 (req.employees_needed
        + adjust (req.position_name, req.shift_type, weekday req.business_date)) : ℤ) : ℚ)
        * req.hours_per_employee * req.base_hourly_rate }

/-- `_apply_manager_feedback_adjustments` over the whole requirement list. -/
def applyManagerFeedback (adjust : String × String × ℕ → ℤ)
    (reqs : List Requirement) : List Requirement :=
  reqs.map (feedbackTransform adjust)

/-- C10: the learned feedback adjustment never drops a headcount below 1 —
the adjusted requirement has `employees_needed = max(1, old + delta) ≥ 1`
(in particular old = 1 with delta = −1 stays 1), and its totals are
recomputed consistently as `employees_needed × hours_per_employee`
(× rate for cost). -/
theorem C10_feedback_floor (adjust : String × String × ℕ → ℤ)
    (reqs : List Requirement) (r : Requirement) (hr : r ∈ reqs)
    (hδ : adjust (r.position_name, r.shift_type, weekday r.business_date) ≠ 0) :
    ∃ r' ∈ applyManagerFeedback adjust reqs,
      r'.employees_needed
          = max 1 (r.employees_needed
              + adjust (r.position_name, r.shift_type, weekday r.business_date)) ∧
      1 ≤ r'.employees_needed ∧
      (r.employees_needed = 1 →
        adjust (r.position_name, r.shift_type, weekday r.business_date) = -1 →
        r'.employees_needed = 1) ∧
      r'.total_hours = (r'.employees_needed : ℚ) * r.hours_per_employee ∧
      r'.total_cost = r'.total_hours * r.base_hourly_rate := by
  refine ⟨feedbackTransform adjust r, List.mem_map_of_mem _ hr, ?_⟩
  unfold feedbackTransform
  rw [if_neg hδ]
  refine ⟨rfl, le_max_left _ _, fun h1 hneg => ?_, rfl, rfl⟩
  rw [h1, hneg]
  show max 1 ((1 : ℤ) + -1) = 1
  decide

/-- C10 witness: a concrete requirement with headcount 1 and a learned −1
adjustment on its cell keeps headcount 1. -/
theorem C10_feedback_floor_witness :
    ∃ r' ∈ applyManagerFeedback (fun _ => -1)
        [⟨0, "dinner", "p1", "Server", 20, 1, 6, 6, 120⟩],
      r'.employees_needed
          = max 1 ((1 : ℤ) + (fun (_ : String × String × ℕ) => (-1 : ℤ))
              ("Server", "dinner", weekday 0)) ∧
      1 ≤ r'.employees_needed ∧
      ((1 : ℤ) = 1 →
        (fun (_ : String × String × ℕ) => (-1 : ℤ)) ("Server", "dinner", weekday 0) = -1 →
        r'.employees_needed = 1) ∧
      r'.total_hours = (r'.employees_needed : ℚ) * 6 ∧
      r'.total_cost = r'.total_hours * 20 :=
  C10_feedback_floor (fun _ => -1) [⟨0, "dinner", "p1", "Server", 20, 1, 6, 6, 120⟩]
    ⟨0, "dinner", "p1", "Server", 20, 1, 6, 6, 120⟩ (by simp) (by norm_num)

/-! ## POS Importer — `labor_optimizer/services/pos_importer.py` -/

/-- One parsed CSV row after column mapping, as `CSVCheckImporter.fetch_checks`
sees it; `none` models a missing or unparseable value. Times are minutes
since an arbitrary epoch; a time's calendar date is its day number `t / 1440`. -/
structure CsvRow where
  open_time : Option ℕ
  close_time : Option ℕ
  guest_count : Option ℤ
  deriving DecidableEq, Repr

/-- One record of the list returned by `fetch_checks`. -/
structure ImportedCheck where
  open_time : ℕ
  close_time : Option ℕ
  guest_count : ℤ
  deriving DecidableEq, Repr

/-- The guest count `fetch_checks` assigns: default 1; a parsed value is
clamped by `max(1, int(float(...)))`. -/
def csvGuestCount (raw : Option ℤ) : ℤ :=
  match raw with
  | none => 1
  | some g => max 1 g

/-- From `CSVCheckImporter.fetch_checks`: a row is skipped only when its
open_time is missing/unparseable or its calendar date is not the requested
business date; every surviving row is appended with the clamped guest count
and its close_time passed through untouched — there is no close ≤ open or
negative-guest check anywhere on the import path. -/
def csvFetchChecks (business_date : ℕ) (rows : List CsvRow) : List ImportedCheck :=
  rows.filterMap (fun row =>
    match row.open_time with
    | none => none
    | some ot =>
        if ot / 1440 = business_date then
          some { open_time := ot
                 close_time := row.close_time
                 guest_count := csvGuestCount row.guest_count }
        else none)

/-- C8 counterexample: a row whose close precedes its open AND whose guest
count is −3 is NOT dropped — the batch imports it, with guest_count
substituted by max(1, −3) = 1. -/
theorem C8_counterexample :
    (1070 : ℕ) ≤ 1080 ∧ (-3 : ℤ) < 0 ∧
    csvFetchChecks 0 [⟨some 1080, some 1070, some (-3)⟩]
      = [⟨1080, some 1070, 1⟩] := by
  refine ⟨by norm_num, by norm_num, ?_⟩
  rfl

/-- C8 (amended): malformed check records are retained, not dropped: a row
with close_time ≤ open_time or negative guest_count survives import (with
guest_count substituted by `max(1, value)`, or 1 when missing); a row is
skipped only for a missing open_time or a non-matching business date, and
the rest of the batch is processed either way. -/
theorem C8_malformed_retained (bd : ℕ) (rows : List CsvRow) :
    ((csvFetchChecks bd rows).length
      = rows.countP (fun row =>
          match row.open_time with
          | none => false
          | some ot => decide (ot / 1440 = bd))) ∧
    (∀ row ∈ rows, ∀ ot, row.open_time = some ot → ot / 1440 = bd →
      ImportedCheck.mk ot row.close_time (csvGuestCount row.guest_count)
          ∈ csvFetchChecks bd rows ∧
      1 ≤ csvGuestCount row.guest_count) := by
  constructor
  · induction rows with
    | nil => rfl
    | cons row rest ih =>
        simp only [csvFetchChecks, List.filterMap_cons, List.countP_cons] at ih ⊢
        cases hot : row.open_time with
        | none => simpa [hot] using ih
        | some ot =>
            by_cases hd : ot / 1440 = bd
            · simp [hot, hd, ih]
            · simp [hot, hd, ih]
  · intro row hrow ot hot hd
    constructor
    · apply List.mem_filterMap.mpr
      exact ⟨row, hrow, by rw [hot]; simp [hd]⟩
    · unfold csvGuestCount
      cases row.guest_count with
      | none => norm_num
      | some g => exact le_max_left _ _

/-- C8 witness: the amended theorem applied to a batch of one well-formed and
one malformed row (close before open, −3 guests): both survive. -/
theorem C8_malformed_retained_witness :
    (csvFetchChecks 0 [⟨some 600, some 700, some 4⟩, ⟨some 1080, some 1070, some (-3)⟩]).length
      = ([⟨some 600, some 700, some 4⟩,
          (⟨some 1080, some 1070, some (-3)⟩ : CsvRow)].countP (fun row =>
          match row.open_time with
          | none => false
          | some ot => decide (ot / 1440 = 0))) ∧
    ImportedCheck.mk 1080 (some 1070) (csvGuestCount (some (-3)))
        ∈ csvFetchChecks 0 [⟨some 600, some 700, some 4⟩, ⟨some 1080, some 1070, some (-3)⟩] ∧
    1 ≤ csvGuestCount (some (-3)) := by
  have h := C8_malformed_retained 0
    [⟨some 600, some 700, some 4⟩, ⟨some 1080, some 1070, some (-3)⟩]
  refine ⟨h.1, ?_⟩
  exact h.2 ⟨some 1080, some 1070, some (-3)⟩ (by simp) 1080 rfl (by norm_num)

/-- One active employee as `generate_schedule` sees it
(`max_hours_per_week = None` falls back to 40.0 in the cap check). -/
structure Employee where
  id : String
  primary_position_id : String
  max_hours_per_week : Option ℚ
  base_hourly_rate : ℚ
  deriving DecidableEq, Repr

/-- One schedule assignment (the fields the claims are about). -/
structure Assignment where
  employee_id : String
  position_id : String
  business_date : ℕ
  scheduled_hours : ℚ
  deriving DecidableEq, Repr

/-- The mutable state of the greedy loop in `generate_schedule`:
`emp_weekly_hours`, `emp_daily_shifts`, the assignment list and the
unfilled tally. -/
structure AssignState where
  weekly : String → ℚ
  daily : String → ℕ → ℕ
  assignments : List Assignment
  unfilled : ℤ

/-- From `generate_schedule`, the inner `for emp in eligible_sorted` loop for
one requirement: stop once `assigned_count ≥ employees_needed` (`remaining`
counts down); skip an employee who would exceed their weekly cap (unless the
requirement is for a fixed/salaried position) or who already has an
assignment that calendar date; otherwise assign and update the tallies.
After the loop, `unfilled += employees_needed − assigned_count`. -/
def assignLoop (req : Requirement) (is_fixed : Bool) :
    List Employee → ℤ → AssignState → AssignState
  | [], remaining, st => { st with unfilled := st.unfilled + remaining }
  | emp :: rest, remaining, st =>
      if remaining ≤ 0 then { st with unfilled := st.unfilled + remaining }
      else if is_fixed = false ∧
          (emp.max_hours_per_week).getD 40 < st.weekly emp.id + req.hours_per_employee then
        assignLoop req is_fixed rest remaining st
      else if 1 ≤ st.daily emp.id req.business_date then
        assignLoop req is_fixed rest remaining st
      else
        assignLoop req is_fixed rest (remaining - 1)
          { weekly := fun i =>
              if i = emp.id then st.weekly i + req.hours_per_employee else st.weekly i
            daily := fun i d =>
              if i = emp.id ∧ d = req.business_date then st.daily i d + 1 else st.daily i d
            assignments := st.assignments
              ++ [⟨emp.id, req.position_id, req.business_date, req.hours_per_employee⟩]
            unfilled := st.unfilled }

/-- From `generate_schedule`, the outer loop over `sorted_reqs`: for each
requirement take the employees whose primary position matches
(`emps_by_position`), put them in scoring order (`empOrder` abstracts the
float multi-objective sort `_score_employee`), and run the inner loop. -/
def runAssignments (emps : List Employee)
    (empOrder : Requirement → List Employee → List Employee) :
    List Requirement → AssignState → AssignState
  | [], st => st
  | req :: rest, st =>
      runAssignments emps empOrder rest
        (assignLoop req (isFixedPosition req.position_name)
          (empOrder req
            (emps.filter (fun e => decide (e.primary_position_id = req.position_id))))
          req.employees_needed st)

/-- `generate_schedule` (greedy assignment part): requirements in priority
order (`reqOrder` abstracts the `req_priority` sort), employees scored per
requirement, starting from empty tallies. -/
def generate_schedule (reqs : List Requirement) (emps : List Employee)
    (reqOrder : List Requirement → List Requirement)
    (empOrder : Requirement → List Employee → List Employee) : AssignState :=
  runAssignments emps empOrder (reqOrder reqs) ⟨fun _ => 0, fun _ _ => 0, [], 0⟩

/-- Number of assignments an employee id holds on a calendar date. -/
def dailyCount (asgs : List Assignment) (i : String) (d : ℕ) : ℕ :=
  asgs.countP (fun a => decide (a.employee_id = i ∧ a.business_date = d))

/-- Sum of an employee id's assigned shift hours. -/
def weeklySum (asgs : List Assignment) (i : String) : ℚ :=
  ((asgs.filter (fun a => decide (a.employee_id = i))).map
    Assignment.scheduled_hours).sum

lemma dailyCount_append_single (l : List Assignment) (a : Assignment)
    (i : String) (d : ℕ) :
    dailyCount (l ++ [a]) i d
      = dailyCount l i d
        + (if a.employee_id = i ∧ a.business_date = d then 1 else 0) := by
  by_cases h : a.employee_id = i ∧ a.business_date = d <;>
    simp [dailyCount, List.countP_append, List.countP_cons, h]

lemma weeklySum_append_single (l : List Assignment) (a : Assignment) (i : String) :
    weeklySum (l ++ [a]) i
      = weeklySum l i + (if a.employee_id = i then a.scheduled_hours else 0) := by
  by_cases h : a.employee_id = i <;>
    simp [weeklySum, List.filter_append, h]

lemma assignLoop_daily (req : Requirement) (fix : Bool) (emps : List Employee)
    (rem : ℤ) (st : AssignState)
    (htrack : ∀ i d, st.daily i d = dailyCount st.assignments i d)
    (hbound : ∀ i d, dailyCount st.assignments i d ≤ 1) :
    (∀ i d, (assignLoop req fix emps rem st).daily i d
        = dailyCount (assignLoop req fix emps rem st).assignments i d) ∧
    (∀ i d, dailyCount (assignLoop req fix emps rem st).assignments i d ≤ 1) := by
  induction emps generalizing rem st with
  | nil => exact ⟨htrack, hbound⟩
  | cons emp rest ih =>
      unfold assignLoop
      split_ifs with h1 h2 h3
      · exact ⟨htrack, hbound⟩
      · exact ih rem st htrack hbound
      · exact ih rem st htrack hbound
      · apply ih
        · intro i d
          rw [dailyCount_append_single]
          show (if i = emp.id ∧ d = req.business_date then st.daily i d + 1
              else st.daily i d) = _
          by_cases hm : i = emp.id ∧ d = req.business_date
          · rw [if_pos hm,
              if_pos (show (⟨emp.id, req.position_id, req.business_date,
                req.hours_per_employee⟩ : Assignment).employee_id = i ∧
                (⟨emp.id, req.position_id, req.business_date,
                  req.hours_per_employee⟩ : Assignment).business_date = d from
                ⟨hm.1.symm, hm.2.symm⟩),
              htrack i d]
          · rw [if_neg hm,
              if_neg (show ¬((⟨emp.id, req.position_id, req.business_date,
                req.hours_per_employee⟩ : Assignment).employee_id = i ∧
                (⟨emp.id, req.position_id, req.business_date,
                  req.hours_per_employee⟩ : Assignment).business_date = d) from
                fun hx => hm ⟨hx.1.symm, hx.2.symm⟩),
              htrack i d, add_zero]
        · intro i d
          rw [dailyCount_append_single]
          by_cases hm : emp.id = i ∧ req.business_date = d
          · rw [if_pos hm]
            have hd0 : st.daily emp.id req.business_date = 0 := by omega
            have h0 : dailyCount st.assignments i d = 0 := by
              rw [← hm.1, ← hm.2, ← htrack emp.id req.business_date, hd0]
            omega
          · rw [if_neg hm]
            have := hbound i d
            omega

lemma assignLoop_weekly (req : Requirement) (fix : Bool) (emps : List Employee)
    (rem : ℤ) (st : AssignState) (e : Employee)
    (hemps : ∀ emp ∈ emps, emp.id = e.id →
      fix = false ∧ emp.max_hours_per_week = e.max_hours_per_week)
    (htrack : ∀ i, st.weekly i = weeklySum st.assignments i)
    (hcap : st.weekly e.id ≤ (e.max_hours_per_week).getD 40) :
    (∀ i, (assignLoop req fix emps rem st).weekly i
        = weeklySum (assignLoop req fix emps rem st).assignments i) ∧
    (assignLoop req fix emps rem st).weekly e.id
        ≤ (e.max_hours_per_week).getD 40 := by
  induction emps generalizing rem st with
  | nil => exact ⟨htrack, hcap⟩
  | cons emp rest ih =>
      unfold assignLoop
      split_ifs with h1 h2 h3
      · exact ⟨htrack, hcap⟩
      · exact ih rem st (fun x hx => hemps x (List.mem_cons_of_mem _ hx)) htrack hcap
      · exact ih rem st (fun x hx => hemps x (List.mem_cons_of_mem _ hx)) htrack hcap
      · apply ih _ _ (fun x hx => hemps x (List.mem_cons_of_mem _ hx))
        · intro i
          rw [weeklySum_append_single]
          show (if i = emp.id then st.weekly i + req.hours_per_employee
              else st.weekly i) = _
          by_cases hm : i = emp.id
          · rw [if_pos hm,
              if_pos (show (⟨emp.id, req.position_id, req.business_date,
                req.hours_per_employee⟩ : Assignment).employee_id = i from hm.symm),
              htrack i]
          · rw [if_neg hm,
              if_neg (show ¬(⟨emp.id, req.position_id, req.business_date,
                req.hours_per_employee⟩ : Assignment).employee_id = i from
                fun hx => hm hx.symm),
              htrack i, add_zero]
        · by_cases hm : e.id = emp.id
          · obtain ⟨hfix2, hmax⟩ := hemps emp (List.mem_cons_self _ _) hm.symm
            show (if e.id = emp.id then st.weekly e.id + req.hours_per_employee
                else st.weekly e.id) ≤ _
            rw [if_pos hm]
            have hle : st.weekly emp.id + req.hours_per_employee
                ≤ (emp.max_hours_per_week).getD 40 := by
              by_contra hlt
              push_neg at hlt
              exact h2 ⟨hfix2, hlt⟩
            rw [← hm, hmax] at hle
            exact hle
          · show (if e.id = emp.id then st.weekly e.id + req.hours_per_employee
                else st.weekly e.id) ≤ _
            rw [if_neg hm]
            exact hcap

lemma runAssignments_daily (emps : List Employee)
    (empOrder : Requirement → List Employee → List Employee)
    (reqs : List Requirement) (st : AssignState)
    (htrack : ∀ i d, st.daily i d = dailyCount st.assignments i d)
    (hbound : ∀ i d, dailyCount st.assignments i d ≤ 1) :
    ∀ i d, dailyCount (runAssignments emps empOrder reqs st).assignments i d ≤ 1 := by
  induction reqs generalizing st with
  | nil => exact hbound
  | cons req rest ih =>
      unfold runAssignments
      obtain ⟨ht, hb⟩ := assignLoop_daily req (isFixedPosition req.position_name)
        (empOrder req (emps.filter
          (fun e => decide (e.primary_position_id = req.position_id))))
        req.employees_needed st htrack hbound
      exact ih _ ht hb

lemma runAssignments_weekly (emps : List Employee)
    (empOrder : Requirement → List Employee → List Employee)
    (horder : ∀ r l, ∀ e' ∈ empOrder r l, e' ∈ l)
    (reqs : List Requirement) (st : AssignState) (e : Employee)
    (hid : ∀ e' ∈ emps, e'.id = e.id → e' = e)
    (hfix : ∀ r ∈ reqs, r.position_id = e.primary_position_id →
      isFixedPosition r.position_name = false)
    (htrack : ∀ i, st.weekly i = weeklySum st.assignments i)
    (hcap : st.weekly e.id ≤ (e.max_hours_per_week).getD 40) :
    (∀ i, (runAssignments emps empOrder reqs st).weekly i
        = weeklySum (runAssignments emps empOrder reqs st).assignments i) ∧
    (runAssignments emps empOrder reqs st).weekly e.id
      ≤ (e.max_hours_per_week).getD 40 := by
  induction reqs generalizing st with
  | nil => exact ⟨htrack, hcap⟩
  | cons req rest ih =>
      unfold runAssignments
      have hstep : ∀ emp ∈ empOrder req (emps.filter
          (fun x => decide (x.primary_position_id = req.position_id))),
          emp.id = e.id →
          isFixedPosition req.position_name = false ∧
          emp.max_hours_per_week = e.max_hours_per_week := by
        intro emp hemp hempid
        have hmem : emp ∈ emps.filter
            (fun x => decide (x.primary_position_id = req.position_id)) :=
          horder _ _ _ hemp
        have hempin : emp ∈ emps := List.mem_of_mem_filter hmem
        have heq : emp = e := hid emp hempin hempid
        have hpos : emp.primary_position_id = req.position_id := by
          have := List.of_mem_filter hmem
          simpa using this
        constructor
        · apply hfix req (List.mem_cons_self _ _)
          rw [← hpos, heq]
        · rw [heq]
      obtain ⟨ht, hc⟩ := assignLoop_weekly req (isFixedPosition req.position_name)
        (empOrder req (emps.filter
          (fun x => decide (x.primary_position_id = req.position_id))))
        req.employees_needed st e hstep htrack hcap
      exact ih _ (fun r hr => hfix r (List.mem_cons_of_mem _ hr)) ht hc

/-- C2: in every schedule `generate_schedule` produces — whatever the
requirement priority order and per-requirement employee scoring order —
(1) no employee id holds more than one assignment on any calendar date, and
(2) every employee all of whose position's requirements are non-exempt
(not fixed/salaried) ends the week with assigned hours within their
configured cap (40 when unset). -/
theorem C2_assignment_invariants (reqs : List Requirement) (emps : List Employee)
    (reqOrder : List Requirement → List Requirement)
    (empOrder : Requirement → List Employee → List Employee)
    (horder : ∀ r l, ∀ e' ∈ empOrder r l, e' ∈ l)
    (hreqs : ∀ r ∈ reqOrder reqs, r ∈ reqs) :
    (∀ i d, dailyCount (generate_schedule reqs emps reqOrder empOrder).assignments i d ≤ 1) ∧
    (∀ e ∈ emps, (∀ e' ∈ emps, e'.id = e.id → e' = e) →
      (∀ r ∈ reqs, r.position_id = e.primary_position_id →
        isFixedPosition r.position_name = false) →
      0 ≤ (e.max_hours_per_week).getD 40 →
      weeklySum (generate_schedule reqs emps reqOrder empOrder).assignments e.id
        ≤ (e.max_hours_per_week).getD 40) := by
  constructor
  · exact runAssignments_daily emps empOrder (reqOrder reqs) _
      (fun i d => rfl) (fun i d => by simp [dailyCount])
  · intro e hemem hid hfix hcapnn
    have h := runAssignments_weekly emps empOrder horder (reqOrder reqs)
      ⟨fun _ => 0, fun _ _ => 0, [], 0⟩ e hid
      (fun r hr => hfix r (hreqs r hr))
      (fun i => by simp [weeklySum]) (by simpa using hcapnn)
    unfold generate_schedule
    rw [← h.1 e.id]
    exact h.2

/-- C2 witness: a one-requirement (Server, 6h), one-employee (no configured
cap, so 40) schedule, identity orderings. -/
theorem C2_assignment_invariants_witness :
    dailyCount (generate_schedule [⟨0, "dinner", "p1", "Server", 20, 1, 6, 6, 120⟩]
        [⟨"e1", "p1", none, 20⟩] id (fun _ l => l)).assignments "e1" 0 ≤ 1 ∧
    weeklySum (generate_schedule [⟨0, "dinner", "p1", "Server", 20, 1, 6, 6, 120⟩]
        [⟨"e1", "p1", none, 20⟩] id (fun _ l => l)).assignments "e1"
      ≤ ((none : Option ℚ).getD 40) := by
  have h := C2_assignment_invariants [⟨0, "dinner", "p1", "Server", 20, 1, 6, 6, 120⟩]
    [⟨"e1", "p1", none, 20⟩] id (fun _ l => l)
    (fun r l e' he' => he') (fun r hr => hr)
  refine ⟨h.1 "e1" 0, ?_⟩
  have h2 := h.2 ⟨"e1", "p1", none, 20⟩ (by simp)
    (by intro e' he' hide'; simpa using he')
    (by intro r hr hpos; rw [List.mem_singleton] at hr; rw [hr]; decide)
    (by norm_num)
  simpa using h2

/-! ## Shift-Wave Deriver — `scheduler/auto_scheduler.py`, `_compute_shift_waves`

The source walks the sorted hours, builds arrival events (hour-over-hour
increases, with `prev` starting at 0) and departure events (decreases, plus
a final departure of anything still on floor one hour after the last data
point), then FIFO-matches departures against the arrival queue. The emitted
dicts carry `count`, formatted `start = arrival·60 − setup_min`,
`end = departure·60 + teardown_min`, and `hours`; the wave is determined
by the matched (arrival hour, departure hour, count), kept explicitly here
(`startMinutes`/`endMinutes` recover the formatted fields). -/

/-- One shift wave from `_compute_shift_waves`. -/
structure Wave where
  count : ℕ
  arr : ℕ
  dep : ℕ
  deriving DecidableEq, Repr

/-- `s_total = arr_h * 60 - setup_min` of the source. -/
def Wave.startMinutes (setup_min : ℕ) (w : Wave) : ℤ :=
  (w.arr : ℤ) * 60 - setup_min

/-- `e_total = dep_h * 60 + teardown_min` of the source. -/
def Wave.endMinutes (teardown_min : ℕ) (w : Wave) : ℤ :=
  (w.dep : ℤ) * 60 + teardown_min

/-- The arrival/departure event builder of `_compute_shift_waves`: `h` is the
hour of the first entry of the (contiguous) curve, `prev` the previous
hour's count (0 initially); whatever is left at the end departs at the hour
after the last data point. -/
def shiftEvents (h prev : ℕ) : List ℕ → List (ℕ × ℕ) × List (ℕ × ℕ)
  | [] => ([], if 0 < prev then [(h, prev)] else [])
  | cur :: rest =>
      if prev < cur then
        ((h, cur - prev) :: (shiftEvents (h + 1) cur rest).1,
          (shiftEvents (h + 1) cur rest).2)
      else if cur < prev then
        ((shiftEvents (h + 1) cur rest).1,
          (h, prev - cur) :: (shiftEvents (h + 1) cur rest).2)
      else shiftEvents (h + 1) cur rest

/-- The inner `while remaining > 0 and queue` loop of `_compute_shift_waves`:
serve one departure event of size `remaining` at hour `dep_h` from the front
of the arrival queue, emitting waves of `take = min(remaining, avail)`. -/
def serveDep (dep_h : ℕ) : ℕ → List (ℕ × ℕ) → List Wave × List (ℕ × ℕ)
  | _, [] => ([], [])
  | remaining, (arr_h, avail) :: rest =>
      if remaining = 0 then ([], (arr_h, avail) :: rest)
      else if avail ≤ remaining then
        (⟨avail, arr_h, dep_h⟩ :: (serveDep dep_h (remaining - avail) rest).1,
          (serveDep dep_h (remaining - avail) rest).2)
      else ([⟨remaining, arr_h, dep_h⟩], (arr_h, avail - remaining) :: rest)

/-- The `for dep_h, dep_n in departures` loop of `_compute_shift_waves`. -/
def fifoLoop : List (ℕ × ℕ) → List (ℕ × ℕ) → List Wave
  | _, [] => []
  | queue, (d, n) :: deps =>
      (serveDep d n queue).1 ++ fifoLoop (serveDep d n queue).2 deps

/-- `_compute_shift_waves` with the curve given as the value list of a
contiguous range of hours starting at `h0` (the source sorts the dict keys;
the claims concern contiguous non-negative curves). -/
def compute_shift_waves (h0 : ℕ) (counts : List ℕ) : List Wave :=
  fifoLoop (shiftEvents h0 0 counts).1 (shiftEvents h0 0 counts).2

/-- Occupancy reconstructed from waves at hour `t`: the total count of waves
with arrival hour ≤ t < departure hour. -/
def reconOccupancy (waves : List Wave) (t : ℕ) : ℕ :=
  ((waves.filter (fun w => decide (w.arr ≤ t) && decide (t < w.dep))).map
    Wave.count).sum

/-- Expand an event list into one entry per person, keeping its hour. -/
def units (l : List (ℕ × ℕ)) : List ℕ :=
  l.flatMap (fun p => List.replicate p.2 p.1)

/-- Expand a wave list into one (arrival, departure) pair per person. -/
def wavePairs (ws : List Wave) : List (ℕ × ℕ) :=
  ws.flatMap (fun w => List.replicate w.count (w.arr, w.dep))

/-- Total head count of an event list. -/
def totalCount (l : List (ℕ × ℕ)) : ℕ := (l.map Prod.snd).sum

/-- Total of a curve's hour-over-hour increases, the first hour counted as
an increase from `prev`. -/
def totalIncreases (prev : ℕ) : List ℕ → ℕ
  | [] => 0
  | cur :: rest => (cur - prev) + totalIncreases cur rest

lemma serveDep_units (d : ℕ) : ∀ (n : ℕ) (q : List (ℕ × ℕ)),
    wavePairs (serveDep d n q).1 = ((units q).take n).map (fun a => (a, d)) ∧
    units (serveDep d n q).2 = (units q).drop n
  | n, [] => by simp [serveDep, wavePairs, units]
  | n, (a, avail) :: rest => by
      by_cases h0 : n = 0
      · subst h0
        simp [serveDep, wavePairs, units]
      · by_cases hle : avail ≤ n
        · have ih := serveDep_units d (n - avail) rest
          simp only [serveDep, if_neg h0, if_pos hle]
          constructor
          · have h1 := ih.1
            simp only [wavePairs, units, List.flatMap_cons] at h1 ⊢
            rw [h1, List.take_append_eq_append_take, List.take_replicate,
              min_eq_right hle, List.length_replicate, List.map_append,
              List.map_replicate]
          · have h2 := ih.2
            simp only [units, List.flatMap_cons] at h2 ⊢
            rw [h2, List.drop_append_eq_append_drop, List.drop_replicate,
              List.length_replicate, Nat.sub_eq_zero_of_le hle,
              List.replicate_zero, List.nil_append]
        · push_neg at hle
          simp only [serveDep, if_neg h0, if_neg (not_le.mpr hle)]
          constructor
          · simp only [wavePairs, units, List.flatMap_cons, List.flatMap_nil,
              List.append_nil]
            rw [List.take_append_eq_append_take, List.take_replicate,
              min_eq_left (le_of_lt hle), List.length_replicate,
              Nat.sub_eq_zero_of_le (le_of_lt hle), List.take_zero,
              List.append_nil, List.map_replicate]
          · simp only [units, List.flatMap_cons]
            rw [List.drop_append_eq_append_drop, List.drop_replicate,
              List.length_replicate, Nat.sub_eq_zero_of_le (le_of_lt hle),
              List.drop_zero]

lemma zip_replicate_append (d : ℕ) : ∀ (u : List ℕ) (n : ℕ) (v : List ℕ),
    u.zip (List.replicate n d ++ v)
      = (u.take n).map (fun a => (a, d)) ++ (u.drop n).zip v
  | [], n, v => by simp
  | a :: u, 0, v => by simp
  | a :: u, n + 1, v => by
      simp only [List.replicate_succ, List.cons_append, List.zip_cons_cons,
        List.take_succ_cons, List.map_cons, List.drop_succ_cons,
        List.cons_append]
      rw [zip_replicate_append d u n v]

lemma wavePairs_append (l1 l2 : List Wave) :
    wavePairs (l1 ++ l2) = wavePairs l1 ++ wavePairs l2 := by
  simp [wavePairs]

lemma fifoLoop_pairs : ∀ (deps q : List (ℕ × ℕ)),
    wavePairs (fifoLoop q deps) = (units q).zip (units deps)
  | [], q => by simp [fifoLoop, wavePairs, units]
  | (d, n) :: deps, q => by
      rw [show fifoLoop q ((d, n) :: deps)
          = (serveDep d n q).1 ++ fifoLoop (serveDep d n q).2 deps from rfl,
        wavePairs_append, (serveDep_units d n q).1,
        fifoLoop_pairs deps (serveDep d n q).2, (serveDep_units d n q).2,
        show units ((d, n) :: deps) = List.replicate n d ++ units deps from by
          simp [units],
        zip_replicate_append]

lemma length_units : ∀ l : List (ℕ × ℕ), (units l).length = totalCount l
  | [] => rfl
  | (h, c) :: rest => by
      simp only [units, List.flatMap_cons, List.length_append,
        List.length_replicate, totalCount, List.map_cons, List.sum_cons]
      have ih := length_units rest
      simp only [units, totalCount] at ih
      omega

lemma length_wavePairs : ∀ ws : List Wave,
    (wavePairs ws).length = (ws.map Wave.count).sum
  | [] => rfl
  | w :: ws => by
      simp only [wavePairs, List.flatMap_cons, List.length_append,
        List.length_replicate, List.map_cons, List.sum_cons]
      have ih := length_wavePairs ws
      simp only [wavePairs] at ih
      omega

lemma recon_eq_countP_pairs (t : ℕ) : ∀ ws : List Wave,
    reconOccupancy ws t
      = (wavePairs ws).countP (fun q => decide (q.1 ≤ t) && decide (t < q.2))
  | [] => rfl
  | w :: ws => by
      simp only [reconOccupancy, wavePairs, List.flatMap_cons, List.countP_append,
        List.filter_cons, List.countP_replicate]
      have ihw := recon_eq_countP_pairs t ws
      simp only [reconOccupancy, wavePairs] at ihw
      cases hw : (decide (w.arr ≤ t) && decide (t < w.dep)) <;>
        simp [hw, ihw]

lemma countP_units_le (x : ℕ) : ∀ l : List (ℕ × ℕ),
    (units l).countP (fun a => decide (a ≤ x))
      = ((l.filter (fun q => decide (q.1 ≤ x))).map Prod.snd).sum
  | [] => rfl
  | (h, c) :: rest => by
      simp only [units, List.flatMap_cons, List.countP_append,
        List.countP_replicate, List.filter_cons]
      have ih := countP_units_le x rest
      simp only [units] at ih
      cases hh : (decide (h ≤ x)) <;> simp [hh, ih]

lemma countP_units_lt (x : ℕ) : ∀ l : List (ℕ × ℕ),
    (units l).countP (fun a => decide (a < x))
      = ((l.filter (fun q => decide (q.1 < x))).map Prod.snd).sum
  | [] => rfl
  | (h, c) :: rest => by
      simp only [units, List.flatMap_cons, List.countP_append,
        List.countP_replicate, List.filter_cons]
      have ih := countP_units_lt x rest
      simp only [units] at ih
      cases hh : (decide (h < x)) <;> simp [hh, ih]

lemma countP_zip_fst (p : ℕ → Bool) : ∀ (u v : List ℕ), u.length = v.length →
    (u.zip v).countP (fun q => p q.1) = u.countP p
  | [], [], _ => rfl
  | [], b :: v, h => by simp at h
  | a :: u, [], h => by simp at h
  | a :: u, b :: v, h => by
      simp only [List.zip_cons_cons, List.countP_cons]
      rw [countP_zip_fst p u v (by simpa using h)]

lemma countP_zip_snd (p : ℕ → Bool) : ∀ (u v : List ℕ), u.length = v.length →
    (u.zip v).countP (fun q => p q.2) = v.countP p
  | [], [], _ => rfl
  | [], b :: v, h => by simp at h
  | a :: u, [], h => by simp at h
  | a :: u, b :: v, h => by
      simp only [List.zip_cons_cons, List.countP_cons]
      rw [countP_zip_snd p u v (by simpa using h)]

lemma countP_and_split (p q : ℕ × ℕ → Bool) : ∀ l : List (ℕ × ℕ),
    l.countP (fun x => p x && q x) + l.countP (fun x => p x && !q x)
      = l.countP p
  | [] => rfl
  | a :: l => by
      simp only [List.countP_cons]
      have ih := countP_and_split p q l
      cases hp : p a <;> cases hq : q a <;> simp [hp, hq] <;> omega

/-- Head count of events at hours ≤ x. -/
def eventsLE (x : ℕ) (l : List (ℕ × ℕ)) : ℕ :=
  ((l.filter (fun q => decide (q.1 ≤ x))).map Prod.snd).sum

/-- Head count of events at hours < x. -/
def eventsLT (x : ℕ) (l : List (ℕ × ℕ)) : ℕ :=
  ((l.filter (fun q => decide (q.1 < x))).map Prod.snd).sum

lemma eventsLE_cons (x h c : ℕ) (l : List (ℕ × ℕ)) :
    eventsLE x ((h, c) :: l) = (if h ≤ x then c else 0) + eventsLE x l := by
  simp only [eventsLE, List.filter_cons]
  by_cases hh : h ≤ x <;> simp [hh]

lemma eventsLT_cons (x h c : ℕ) (l : List (ℕ × ℕ)) :
    eventsLT x ((h, c) :: l) = (if h < x then c else 0) + eventsLT x l := by
  simp only [eventsLT, List.filter_cons]
  by_cases hh : h < x <;> simp [hh]

lemma eventsLE_eq_zero {x : ℕ} : ∀ {l : List (ℕ × ℕ)},
    (∀ q ∈ l, x < q.1) → eventsLE x l = 0
  | [], _ => rfl
  | (h, c) :: rest, hl => by
      rw [eventsLE_cons, if_neg (by have := hl (h, c) (List.mem_cons_self _ _); omega),
        eventsLE_eq_zero (fun q hq => hl q (List.mem_cons_of_mem _ hq))]

lemma shiftEvents_bounds : ∀ (c : List ℕ) (h prev : ℕ),
    (∀ q ∈ (shiftEvents h prev c).1, h ≤ q.1) ∧
    (∀ q ∈ (shiftEvents h prev c).2, h ≤ q.1) ∧
    List.Pairwise (fun p q => p.1 < q.1) (shiftEvents h prev c).1 ∧
    List.Pairwise (fun p q => p.1 < q.1) (shiftEvents h prev c).2
  | [], h, prev => by
      by_cases hp : 0 < prev <;> simp [shiftEvents, hp]
  | cur :: rest, h, prev => by
      obtain ⟨hb1, hb2, hp1, hp2⟩ := shiftEvents_bounds rest (h + 1) cur
      by_cases hlt : prev < cur
      · simp only [shiftEvents, if_pos hlt]
        refine ⟨?_, fun q hq => le_trans (by omega) (hb2 q hq), ?_, hp2⟩
        · intro q hq
          rcases List.mem_cons.mp hq with rfl | hq'
          · exact le_refl _
          · exact le_trans (by omega) (hb1 q hq')
        · exact List.pairwise_cons.mpr
            ⟨fun q hq => lt_of_lt_of_le (by omega) (hb1 q hq), hp1⟩
      · by_cases hgt : cur < prev
        · simp only [shiftEvents, if_neg hlt, if_pos hgt]
          refine ⟨fun q hq => le_trans (by omega) (hb1 q hq), ?_, hp1, ?_⟩
          · intro q hq
            rcases List.mem_cons.mp hq with rfl | hq'
            · exact le_refl _
            · exact le_trans (by omega) (hb2 q hq')
          · exact List.pairwise_cons.mpr
              ⟨fun q hq => lt_of_lt_of_le (by omega) (hb2 q hq), hp2⟩
        · simp only [shiftEvents, if_neg hlt, if_neg hgt]
          exact ⟨fun q hq => le_trans (by omega) (hb1 q hq),
            fun q hq => le_trans (by omega) (hb2 q hq), hp1, hp2⟩

lemma shiftEvents_total : ∀ (c : List ℕ) (h prev : ℕ),
    prev + totalCount (shiftEvents h prev c).1
      = totalCount (shiftEvents h prev c).2
  | [], h, prev => by
      by_cases hp : 0 < prev <;> simp [shiftEvents, totalCount, hp] <;> omega
  | cur :: rest, h, prev => by
      have ih := shiftEvents_total rest (h + 1) cur
      by_cases hlt : prev < cur
      · simp only [shiftEvents, if_pos hlt, totalCount, List.map_cons,
          List.sum_cons]
        simp only [totalCount] at ih
        omega
      · by_cases hgt : cur < prev
        · simp only [shiftEvents, if_neg hlt, if_pos hgt, totalCount,
            List.map_cons, List.sum_cons]
          simp only [totalCount] at ih
          omega
        · have heq : cur = prev := by omega
          simp only [shiftEvents, if_neg hlt, if_neg hgt]
          rw [← heq]
          exact ih

lemma shiftEvents_pos : ∀ (c : List ℕ) (h prev : ℕ),
    (∀ q ∈ (shiftEvents h prev c).1, 1 ≤ q.2) ∧
    (∀ q ∈ (shiftEvents h prev c).2, 1 ≤ q.2)
  | [], h, prev => by
      by_cases hp : 0 < prev <;> simp [shiftEvents, hp] <;> omega
  | cur :: rest, h, prev => by
      obtain ⟨ha, hd⟩ := shiftEvents_pos rest (h + 1) cur
      by_cases hlt : prev < cur
      · simp only [shiftEvents, if_pos hlt]
        refine ⟨?_, hd⟩
        intro q hq
        rcases List.mem_cons.mp hq with rfl | hq'
        · show 1 ≤ cur - prev
          omega
        · exact ha q hq'
      · by_cases hgt : cur < prev
        · simp only [shiftEvents, if_neg hlt, if_pos hgt]
          refine ⟨ha, ?_⟩
          intro q hq
          rcases List.mem_cons.mp hq with rfl | hq'
          · show 1 ≤ prev - cur
            omega
          · exact hd q hq'
        · simp only [shiftEvents, if_neg hlt, if_neg hgt]
          exact ⟨ha, hd⟩

lemma shiftEvents_diff : ∀ (c : List ℕ) (h prev i : ℕ) (hi : i < c.length),
    eventsLE (h + i) (shiftEvents h prev c).1 + prev
      = eventsLE (h + i) (shiftEvents h prev c).2 + c.get ⟨i, hi⟩
  | [], _, _, i, hi => absurd hi (by simp)
  | cur :: rest, h, prev, 0, hi => by
      have hb := shiftEvents_bounds rest (h + 1) cur
      have hz1 : eventsLE h (shiftEvents (h + 1) cur rest).1 = 0 :=
        eventsLE_eq_zero (fun q hq => by have := hb.1 q hq; omega)
      have hz2 : eventsLE h (shiftEvents (h + 1) cur rest).2 = 0 :=
        eventsLE_eq_zero (fun q hq => by have := hb.2.1 q hq; omega)
      have hget : (cur :: rest).get ⟨0, hi⟩ = cur := rfl
      rw [Nat.add_zero, hget]
      by_cases hlt : prev < cur
      · simp only [shiftEvents, if_pos hlt, eventsLE_cons, if_pos (le_refl h),
          hz1, hz2]
        omega
      · by_cases hgt : cur < prev
        · simp only [shiftEvents, if_neg hlt, if_pos hgt, eventsLE_cons,
            if_pos (le_refl h), hz1, hz2]
          omega
        · simp only [shiftEvents, if_neg hlt, if_neg hgt, hz1, hz2]
          omega
  | cur :: rest, h, prev, j + 1, hi => by
      have ih := shiftEvents_diff rest (h + 1) cur j (by simpa using hi)
      have hx : h + (j + 1) = (h + 1) + j := by omega
      have hget : (cur :: rest).get ⟨j + 1, hi⟩
          = rest.get ⟨j, by simpa using hi⟩ := rfl
      rw [hx, hget]
      by_cases hlt : prev < cur
      · simp only [shiftEvents, if_pos hlt, eventsLE_cons,
          if_pos (by omega : h ≤ h + 1 + j)]
        omega
      · by_cases hgt : cur < prev
        · simp only [shiftEvents, if_neg hlt, if_pos hgt, eventsLE_cons,
            if_pos (by omega : h ≤ h + 1 + j)]
          omega
        · simp only [shiftEvents, if_neg hlt, if_neg hgt]
          omega

lemma shiftEvents_le_lt : ∀ (c : List ℕ) (h prev x : ℕ),
    eventsLE x (shiftEvents h prev c).2
      ≤ eventsLT x (shiftEvents h prev c).1 + (if h ≤ x then prev else 0)
  | [], h, prev, x => by
      by_cases hp : 0 < prev
      · simp only [shiftEvents, if_pos hp, eventsLE_cons]
        by_cases hx : h ≤ x <;> simp [hx, eventsLE, eventsLT]
      · by_cases hx : h ≤ x <;> simp [shiftEvents, hp, eventsLE, eventsLT, hx]
  | cur :: rest, h, prev, x => by
      have ih := shiftEvents_le_lt rest (h + 1) cur x
      by_cases hlt : prev < cur
      · simp only [shiftEvents, if_pos hlt, eventsLT_cons]
        by_cases hx1 : h + 1 ≤ x
        · rw [if_pos (by omega : h < x), if_pos (by omega : h ≤ x),
            if_pos hx1] at *
          omega
        · rw [if_neg (by omega : ¬h < x), if_neg hx1] at *
          by_cases hx : h ≤ x <;> simp only [if_pos, if_neg, hx, ite_true,
            ite_false] <;> omega
      · by_cases hgt : cur < prev
        · simp only [shiftEvents, if_neg hlt, if_pos hgt, eventsLE_cons]
          by_cases hx1 : h + 1 ≤ x
          · rw [if_pos (by omega : h ≤ x), if_pos (by omega : h ≤ x),
              if_pos hx1] at *
            omega
          · rw [if_neg hx1] at ih
            by_cases hx : h ≤ x
            · rw [if_pos hx, if_pos hx]
              omega
            · rw [if_neg hx, if_neg hx]
              omega
        · simp only [shiftEvents, if_neg hlt, if_neg hgt]
          by_cases hx1 : h + 1 ≤ x
          · rw [if_pos hx1] at ih
            rw [if_pos (by omega : h ≤ x)]
            omega
          · rw [if_neg hx1] at ih
            by_cases hx : h ≤ x
            · rw [if_pos hx]
              omega
            · rw [if_neg hx]
              omega

lemma units_sorted : ∀ {l : List (ℕ × ℕ)},
    List.Pairwise (fun p q => p.1 < q.1) l →
    List.Pairwise (· ≤ ·) (units l)
  | [], _ => by simp [units]
  | (h, c) :: rest, hp => by
      obtain ⟨hhead, htail⟩ := List.pairwise_cons.mp hp
      simp only [units, List.flatMap_cons]
      rw [List.pairwise_append]
      refine ⟨?_, units_sorted htail, ?_⟩
      · exact List.pairwise_replicate.mpr (Or.inr (le_refl h))
      · intro a ha b hb
        obtain ⟨p, hpmem, hbp⟩ := List.mem_flatMap.mp hb
        rw [List.eq_of_mem_replicate ha, List.eq_of_mem_replicate hbp]
        exact le_of_lt (hhead p hpmem)

lemma zip_lt_of_counts : ∀ (u v : List ℕ),
    List.Pairwise (· ≤ ·) u → List.Pairwise (· ≤ ·) v →
    (∀ x, v.countP (fun b => decide (b ≤ x))
      ≤ u.countP (fun a => decide (a < x))) →
    ∀ p ∈ u.zip v, p.1 < p.2
  | [], _, _, _, _, p, hp => by simp at hp
  | a :: u, [], _, _, _, p, hp => by simp at hp
  | a :: u, b :: v, hu, hv, H, p, hp => by
      have hab : a < b := by
        have h2 := H b
        have h1 : 0 < (b :: v).countP (fun c => decide (c ≤ b)) := by
          apply List.countP_pos_iff.mpr
          exact ⟨b, List.mem_cons_self _ _, by simp⟩
        have h3 : 0 < (a :: u).countP (fun c => decide (c < b)) := by omega
        obtain ⟨y, hy, hyb⟩ := List.countP_pos_iff.mp h3
        have hyb' : y < b := by simpa using hyb
        rcases List.mem_cons.mp hy with rfl | hy'
        · exact hyb'
        · have hay : a ≤ y := (List.pairwise_cons.mp hu).1 y hy'
          omega
      rw [List.zip_cons_cons, List.mem_cons] at hp
      rcases hp with rfl | hp'
      · exact hab
      · refine zip_lt_of_counts u v (List.pairwise_cons.mp hu).2
          (List.pairwise_cons.mp hv).2 ?_ p hp'
        intro x
        by_cases hbx : b ≤ x
        · have hax : a < x := lt_of_lt_of_le hab hbx
          have hH := H x
          simp [List.countP_cons, hbx, hax] at hH
          omega
        · have hzero : v.countP (fun c => decide (c ≤ x)) = 0 := by
            rw [List.countP_eq_zero]
            intro c hc
            have hbc : b ≤ c := (List.pairwise_cons.mp hv).1 c hc
            simp only [decide_eq_true_eq]
            omega
          rw [hzero]
          omega

lemma serveDep_counts (d : ℕ) : ∀ (n : ℕ) (q : List (ℕ × ℕ)),
    (∀ p ∈ q, 1 ≤ p.2) →
    (∀ w ∈ (serveDep d n q).1, 1 ≤ w.count) ∧
    (∀ p ∈ (serveDep d n q).2, 1 ≤ p.2)
  | n, [], _ => by simp [serveDep]
  | n, (a, avail) :: rest, hq => by
      by_cases h0 : n = 0
      · subst h0
        simp only [serveDep, if_pos rfl]
        exact ⟨by simp, hq⟩
      · by_cases hle : avail ≤ n
        · have ih := serveDep_counts d (n - avail) rest
            (fun p hp => hq p (List.mem_cons_of_mem _ hp))
          simp only [serveDep, if_neg h0, if_pos hle]
          refine ⟨?_, ih.2⟩
          intro w hw
          rcases List.mem_cons.mp hw with rfl | hw'
          · show 1 ≤ avail
            exact hq (a, avail) (List.mem_cons_self _ _)
          · exact ih.1 w hw'
        · simp only [serveDep, if_neg h0, if_neg hle]
          refine ⟨?_, ?_⟩
          · intro w hw
            rcases List.mem_cons.mp hw with rfl | hw'
            · show 1 ≤ n
              omega
            · simp at hw'
          · intro p hp
            rcases List.mem_cons.mp hp with rfl | hp'
            · show 1 ≤ avail - n
              omega
            · exact hq p (List.mem_cons_of_mem _ hp')

lemma fifoLoop_counts : ∀ (deps q : List (ℕ × ℕ)),
    (∀ p ∈ q, 1 ≤ p.2) →
    ∀ w ∈ fifoLoop q deps, 1 ≤ w.count
  | [], q, _ => by simp [fifoLoop]
  | (d, n) :: deps, q, hq => by
      intro w hw
      have hw' : w ∈ (serveDep d n q).1 ++ fifoLoop (serveDep d n q).2 deps := hw
      rcases List.mem_append.mp hw' with h | h
      · exact (serveDep_counts d n q hq).1 w h
      · exact fifoLoop_counts deps (serveDep d n q).2
          (serveDep_counts d n q hq).2 w h

lemma totalIncreases_eq_events : ∀ (c : List ℕ) (h prev : ℕ),
    totalCount (shiftEvents h prev c).1 = totalIncreases prev c
  | [], h, prev => by
      by_cases hp : 0 < prev <;>
        simp [shiftEvents, totalIncreases, totalCount, hp]
  | cur :: rest, h, prev => by
      have ih := totalIncreases_eq_events rest (h + 1) cur
      by_cases hlt : prev < cur
      · simp only [shiftEvents, if_pos hlt, totalCount, List.map_cons,
          List.sum_cons, totalIncreases]
        simp only [totalCount] at ih
        omega
      · by_cases hgt : cur < prev
        · simp only [shiftEvents, if_neg hlt, if_pos hgt, totalIncreases]
          simp only [totalCount] at ih ⊢
          omega
        · simp only [shiftEvents, if_neg hlt, if_neg hgt, totalIncreases]
          simp only [totalCount] at ih ⊢
          omega

/-- The combined structural facts about the FIFO matching of a curve's
events: the per-person pairs are the zip of the arrival and departure unit
lists, those lists have equal length, and each matched pair departs strictly
after it arrives. -/
lemma compute_shift_waves_pairs (h0 : ℕ) (counts : List ℕ) :
    wavePairs (compute_shift_waves h0 counts)
      = (units (shiftEvents h0 0 counts).1).zip
          (units (shiftEvents h0 0 counts).2) ∧
    (units (shiftEvents h0 0 counts).1).length
      = (units (shiftEvents h0 0 counts).2).length ∧
    ∀ p ∈ (units (shiftEvents h0 0 counts).1).zip
        (units (shiftEvents h0 0 counts).2), p.1 < p.2 := by
  refine ⟨fifoLoop_pairs _ _, ?_, ?_⟩
  · rw [length_units, length_units]
    have := shiftEvents_total counts h0 0
    omega
  · apply zip_lt_of_counts _ _
      (units_sorted (shiftEvents_bounds counts h0 0).2.2.1)
      (units_sorted (shiftEvents_bounds counts h0 0).2.2.2)
    intro x
    rw [countP_units_le, countP_units_lt]
    have h := shiftEvents_le_lt counts h0 0 x
    have hz : (if h0 ≤ x then 0 else 0) = 0 := by simp
    rw [hz] at h
    simpa [eventsLE, eventsLT] using h

/-- C1: for every contiguous non-negative curve and every hour in its range,
the waves derived by `_compute_shift_waves` reconstruct the curve exactly:
the total count of waves with arrival ≤ h < departure equals the input
headcount at h. -/
theorem C1_shift_wave_round_trip (h0 : ℕ) (counts : List ℕ) (i : ℕ)
    (hi : i < counts.length) :
    reconOccupancy (compute_shift_waves h0 counts) (h0 + i)
      = counts.get ⟨i, hi⟩ := by
  obtain ⟨hpairs, hlen, hlt⟩ := compute_shift_waves_pairs h0 counts
  set t := h0 + i with ht
  set u := units (shiftEvents h0 0 counts).1 with hu
  set v := units (shiftEvents h0 0 counts).2 with hv
  rw [recon_eq_countP_pairs, hpairs]
  have hsplit : (u.zip v).countP (fun q => decide (q.1 ≤ t) && decide (q.2 ≤ t))
      + (u.zip v).countP (fun q => decide (q.1 ≤ t) && !decide (q.2 ≤ t))
      = (u.zip v).countP (fun q => decide (q.1 ≤ t)) :=
    countP_and_split (fun q => decide (q.1 ≤ t)) (fun q => decide (q.2 ≤ t))
      (u.zip v)
  have hc1 : (u.zip v).countP (fun q => decide (q.1 ≤ t) && decide (t < q.2))
      = (u.zip v).countP (fun q => decide (q.1 ≤ t) && !decide (q.2 ≤ t)) := by
    apply List.countP_congr
    intro q hq
    simp only [Bool.and_eq_true, decide_eq_true_eq, Bool.not_eq_true',
      decide_eq_false_iff_not]
    omega
  have hc2 : (u.zip v).countP (fun q => decide (q.1 ≤ t) && decide (q.2 ≤ t))
      = (u.zip v).countP (fun q => decide (q.2 ≤ t)) := by
    apply List.countP_congr
    intro q hq
    have hq12 := hlt q hq
    simp only [Bool.and_eq_true, decide_eq_true_eq]
    omega
  have hfst : (u.zip v).countP (fun q => decide (q.1 ≤ t))
      = u.countP (fun a => decide (a ≤ t)) :=
    countP_zip_fst (fun a => decide (a ≤ t)) u v hlen
  have hsnd : (u.zip v).countP (fun q => decide (q.2 ≤ t))
      = v.countP (fun b => decide (b ≤ t)) :=
    countP_zip_snd (fun b => decide (b ≤ t)) u v hlen
  have hA : u.countP (fun a => decide (a ≤ t))
      = eventsLE t (shiftEvents h0 0 counts).1 := countP_units_le t _
  have hD : v.countP (fun b => decide (b ≤ t))
      = eventsLE t (shiftEvents h0 0 counts).2 := countP_units_le t _
  have hdiff := shiftEvents_diff counts h0 0 i hi
  rw [← ht] at hdiff
  omega

/-- C1 witness: the spec's example — curve {15:3, 16:5, 17:5, 18:2, 19:0}
reconstructs to 2 at hour 18. -/
theorem C1_shift_wave_round_trip_witness :
    reconOccupancy (compute_shift_waves 15 [3, 5, 5, 2, 0]) 18 = 2 := by
  have h := C1_shift_wave_round_trip 15 [3, 5, 5, 2, 0] 3 (by norm_num)
  norm_num at h
  exact h

/-- C9: every wave the deriver returns has count ≥ 1 and departs strictly
after it arrives — its span is (departure − arrival) hours plus the setup
and teardown minutes, hence positive — and the wave counts sum to the total
of the curve's hour-over-hour increases (the first hour counted as an
increase from zero): FIFO matching neither creates nor loses workers. -/
theorem C9_wave_conservation (h0 : ℕ) (counts : List ℕ)
    (setup_min teardown_min : ℕ) :
    (∀ w ∈ compute_shift_waves h0 counts,
      1 ≤ w.count ∧ w.arr < w.dep ∧
      Wave.endMinutes teardown_min w - Wave.startMinutes setup_min w
        = ((w.dep : ℤ) - w.arr) * 60 + setup_min + teardown_min ∧
      0 < Wave.endMinutes teardown_min w - Wave.startMinutes setup_min w) ∧
    ((compute_shift_waves h0 counts).map Wave.count).sum
      = totalIncreases 0 counts := by
  obtain ⟨hpairs, hlen, hlt⟩ := compute_shift_waves_pairs h0 counts
  have hcnt : ∀ w ∈ compute_shift_waves h0 counts, 1 ≤ w.count :=
    fifoLoop_counts _ _ (shiftEvents_pos counts h0 0).1
  constructor
  · intro w hw
    have h1 := hcnt w hw
    have h2 : w.arr < w.dep := by
      have hmem : (w.arr, w.dep) ∈ wavePairs (compute_shift_waves h0 counts) := by
        apply List.mem_flatMap.mpr
        exact ⟨w, hw, List.mem_replicate.mpr ⟨by omega, rfl⟩⟩
      rw [hpairs] at hmem
      exact hlt _ hmem
    refine ⟨h1, h2, by unfold Wave.endMinutes Wave.startMinutes; ring, ?_⟩
    unfold Wave.endMinutes Wave.startMinutes
    omega
  · rw [← length_wavePairs, hpairs, List.length_zip, ← hlen, min_self,
      length_units, totalIncreases_eq_events]

/-- C9 witness: on the spec's example curve the waves are
(3 workers 15→18) and (2 workers 16→19); the theorem applied to the first
wave and to the total (3 + 2 = 5 = 3 + 2 increases). -/
theorem C9_wave_conservation_witness :
    (1 ≤ (Wave.mk 3 15 18).count ∧ (Wave.mk 3 15 18).arr < (Wave.mk 3 15 18).dep ∧
      Wave.endMinutes 45 (Wave.mk 3 15 18) - Wave.startMinutes 30 (Wave.mk 3 15 18)
        = (((Wave.mk 3 15 18).dep : ℤ) - (Wave.mk 3 15 18).arr) * 60 + 30 + 45 ∧
      0 < Wave.endMinutes 45 (Wave.mk 3 15 18) - Wave.startMinutes 30 (Wave.mk 3 15 18)) ∧
    ((compute_shift_waves 15 [3, 5, 5, 2, 0]).map Wave.count).sum
      = totalIncreases 0 [3, 5, 5, 2, 0] := by
  have h := C9_wave_conservation 15 [3, 5, 5, 2, 0] 30 45
  exact ⟨h.1 (Wave.mk 3 15 18) (by decide), h.2⟩

end RestaurantApp
